import Mathlib

/-!
# Verification of the streaming counting engine of `ccwc.py`

A shallow embedding of the counting engine in `src/ccwc.py`: byte streams
are `List Nat` (one entry per byte), text is `List Nat` (one entry per
code point), and each counter method of the `CCWC` class becomes a Lean
function over the stream contents.

The Python code delegates text decoding to the `codecs` module; the UTF-8
decoder (both the one-shot `bytes.decode` and the incremental decoder
obtained from `codecs.getincrementaldecoder`) is embedded below following
CPython's UTF-8 semantics: maximal-subpart replacement for malformed
sequences, and buffering of a trailing incomplete sequence between
incremental calls.
-/

/-- ASCII whitespace as recognised by Python's `bytes.isspace` and
`bytes.split()` (space, `\t`, `\n`, `\v`, `\f`, `\r`). -/
def bytesIsSpace (b : Nat) : Bool :=
  b == 9 || b == 10 || b == 11 || b == 12 || b == 13 || b == 32

/-- Unicode whitespace as recognised by Python's `str.isspace` and
`str.split()`. -/
def strIsSpace (c : Nat) : Bool :=
  (9 ≤ c && c ≤ 13) || (28 ≤ c && c ≤ 31) || c == 32 || c == 133 || c == 160 ||
  c == 0x1680 || (0x2000 ≤ c && c ≤ 0x200A) || c == 0x2028 || c == 0x2029 ||
  c == 0x202F || c == 0x205F || c == 0x3000

/-- One element of a decoded stream: a decoded code point, or a decoding
error (one malformed maximal subpart). The error handler decides what an
error becomes: `errors='replace'` turns it into U+FFFD, `errors='ignore'`
drops it. -/
inductive DecElem : Type
  | chr (c : Nat)
  | err
deriving DecidableEq

/-- The `errors='replace'` handler: a decoding error becomes U+FFFD. -/
def elemReplace : DecElem → Nat
  | .chr c => c
  | .err => 0xFFFD

/-- The `errors='ignore'` handler: a decoding error is dropped. -/
def elemKeep : DecElem → Option Nat
  | .chr c => some c
  | .err => none

/-- A UTF-8 continuation byte (`0x80`–`0xBF`). -/
def isCont (b : Nat) : Bool := 0x80 ≤ b && b ≤ 0xBF

/-- Valid second byte of a multi-byte UTF-8 sequence starting with `b0`
(the ranges exclude overlong encodings, surrogates, and code points above
U+10FFFF, as CPython's decoder does). -/
def validSecond (b0 b1 : Nat) : Bool :=
  if b0 == 0xE0 then 0xA0 ≤ b1 && b1 ≤ 0xBF
  else if b0 == 0xED then 0x80 ≤ b1 && b1 ≤ 0x9F
  else if b0 == 0xF0 then 0x90 ≤ b1 && b1 ≤ 0xBF
  else if b0 == 0xF4 then 0x80 ≤ b1 && b1 ≤ 0x8F
  else isCont b1

/-- Code point of a two-byte UTF-8 sequence. -/
def cp2 (b0 b1 : Nat) : Nat := (b0 - 0xC0) * 64 + (b1 - 0x80)

/-- Code point of a three-byte UTF-8 sequence. -/
def cp3 (b0 b1 b2 : Nat) : Nat :=
  (b0 - 0xE0) * 4096 + (b1 - 0x80) * 64 + (b2 - 0x80)

/-- Code point of a four-byte UTF-8 sequence. -/
def cp4 (b0 b1 b2 b3 : Nat) : Nat :=
  (b0 - 0xF0) * 262144 + (b1 - 0x80) * 4096 + (b2 - 0x80) * 64 + (b3 - 0x80)

/-- One step of CPython's UTF-8 decoder: from the undecoded bytes, either
produce the next decoded element (a code point, or one error covering one
maximal subpart of an ill-formed sequence) together with the remaining
bytes, or report (`none`) that the bytes are a prefix of an incomplete but
potentially valid sequence and more input is needed. -/
def utf8Step : List Nat → Option (DecElem × List Nat)
  | [] => none
  | b0 :: r0 =>
    if b0 < 0x80 then some (.chr b0, r0)
    else if b0 < 0xC2 then some (.err, r0)
    else if b0 < 0xE0 then
      match r0 with
      | [] => none
      | b1 :: r1 =>
        if isCont b1 then some (.chr (cp2 b0 b1), r1) else some (.err, r0)
    else if b0 < 0xF0 then
      match r0 with
      | [] => none
      | b1 :: r1 =>
        if validSecond b0 b1 then
          match r1 with
          | [] => none
          | b2 :: r2 =>
            if isCont b2 then some (.chr (cp3 b0 b1 b2), r2)
            else some (.err, r1)
        else some (.err, r0)
    else if b0 < 0xF5 then
      match r0 with
      | [] => none
      | b1 :: r1 =>
        if validSecond b0 b1 then
          match r1 with
          | [] => none
          | b2 :: r2 =>
            if isCont b2 then
              match r2 with
              | [] => none
              | b3 :: r3 =>
                if isCont b3 then some (.chr (cp4 b0 b1 b2 b3), r3)
                else some (.err, r2)
            else some (.err, r1)
        else some (.err, r0)
    else some (.err, r0)

theorem utf8Step_shrinks : ∀ {l : List Nat} {e : DecElem} {rest : List Nat},
    utf8Step l = some (e, rest) → rest.length < l.length := by
  intro l e rest h
  rcases l with _ | ⟨b0, _ | ⟨b1, _ | ⟨b2, _ | ⟨b3, r⟩⟩⟩⟩ <;>
    simp only [utf8Step] at h <;>
    (try split_ifs at h) <;>
    simp only [Option.some.injEq, Prod.mk.injEq, reduceCtorEq] at h <;>
    (obtain ⟨h1, h2⟩ := h) <;> subst h2 <;>
    simp only [List.length_cons, List.length_nil] <;> omega

set_option maxHeartbeats 1000000 in
/-- A decoding decision taken with the bytes at hand is unchanged by
further input: `utf8Step` only returns `some` when every byte it examined
was available. -/
theorem utf8Step_append : ∀ {l : List Nat} {e : DecElem} {rest : List Nat}
    (b : List Nat), utf8Step l = some (e, rest) →
    utf8Step (l ++ b) = some (e, rest ++ b) := by
  intro l e rest b h
  rcases l with _ | ⟨b0, _ | ⟨b1, _ | ⟨b2, _ | ⟨b3, r⟩⟩⟩⟩ <;>
    simp only [utf8Step] at h <;>
    (try split_ifs at h) <;>
    simp only [Option.some.injEq, Prod.mk.injEq, reduceCtorEq] at h <;>
    (obtain ⟨h1, h2⟩ := h) <;> subst h1 <;> subst h2 <;>
    simp only [utf8Step, List.cons_append, List.nil_append] <;>
    split_ifs <;> rfl

/-- CPython's UTF-8 decoder run over a byte sequence: produces the decoded
elements and, when `final = false`, buffers a trailing incomplete sequence
as the carry-over state for the next incremental call. With
`final = true` a trailing incomplete sequence is one decoding error (this
is the `final` flush of the incremental decoder, and also the behaviour of
one-shot `bytes.decode`). -/
def utf8RunRaw (final : Bool) (l : List Nat) : List DecElem × List Nat :=
  match h : utf8Step l with
  | some (e, rest) =>
    let r := utf8RunRaw final rest
    (e :: r.1, r.2)
  | none =>
    if l.isEmpty then ([], []) else if final then ([.err], []) else ([], l)
termination_by l.length
decreasing_by exact utf8Step_shrinks h

theorem utf8RunRaw_some {l : List Nat} {e : DecElem} {rest : List Nat}
    (h : utf8Step l = some (e, rest)) (f : Bool) :
    utf8RunRaw f l = (e :: (utf8RunRaw f rest).1, (utf8RunRaw f rest).2) := by
  rw [utf8RunRaw]
  split
  · rename_i e' rest' h'
    rw [h'] at h
    simp only [Option.some.injEq, Prod.mk.injEq] at h
    rw [h.1, h.2]
  · rename_i h'
    rw [h'] at h
    exact absurd h (by simp)

theorem utf8RunRaw_none {l : List Nat} (h : utf8Step l = none) (f : Bool) :
    utf8RunRaw f l =
      if l.isEmpty then ([], []) else if f then ([.err], []) else ([], l) := by
  rw [utf8RunRaw]
  split
  · rename_i e' rest' h'
    rw [h'] at h
    exact absurd h (by simp)
  · rfl

theorem utf8RunRaw_false_of_none {l : List Nat} (h : utf8Step l = none) :
    utf8RunRaw false l = ([], l) := by
  rw [utf8RunRaw_none h]
  rcases l with _ | ⟨x, r⟩ <;> simp

/-- Chunked decoding agrees with one-shot decoding: running the decoder
over `a`, carrying the buffered tail into the rest of the input, yields
the same element stream as running it over the whole input. -/
theorem utf8RunRaw_append_aux : ∀ (n : Nat) (a : List Nat), a.length ≤ n →
    ∀ (f : Bool) (b : List Nat),
    utf8RunRaw f (a ++ b) =
      ((utf8RunRaw false a).1 ++ (utf8RunRaw f ((utf8RunRaw false a).2 ++ b)).1,
        (utf8RunRaw f ((utf8RunRaw false a).2 ++ b)).2) := by
  intro n
  induction n with
  | zero =>
    intro a ha f b
    have : a = [] := List.length_eq_zero.mp (Nat.le_zero.mp ha)
    subst this
    simp [utf8RunRaw_false_of_none (show utf8Step [] = none from rfl)]
  | succ n ih =>
    intro a ha f b
    cases hs : utf8Step a with
    | none =>
      rw [utf8RunRaw_false_of_none hs]
      simp
    | some er =>
      obtain ⟨e, rest⟩ := er
      have hb := utf8Step_append b hs
      rw [utf8RunRaw_some hs, utf8RunRaw_some hb]
      have hlen : rest.length ≤ n := by
        have := utf8Step_shrinks hs
        omega
      rw [ih rest hlen f b]
      simp

/-- Decomposition of a decoder run over concatenated input. -/
theorem utf8RunRaw_append (a b : List Nat) (f : Bool) :
    utf8RunRaw f (a ++ b) =
      ((utf8RunRaw false a).1 ++ (utf8RunRaw f ((utf8RunRaw false a).2 ++ b)).1,
        (utf8RunRaw f ((utf8RunRaw false a).2 ++ b)).2) :=
  utf8RunRaw_append_aux a.length a le_rfl f b

/-- `CCWC._read_chunks`: repeatedly `file.read(buffer_size)` and stop at
the first empty result. `file.read(0)` returns an empty bytes object, so a
buffer size of 0 stops immediately; a read at end of stream is also empty.
The generator yields only the non-empty chunks (the terminating empty read
is consumed by the `if not chunk: break`, never yielded). -/
def read_chunks (bufSize : Nat) (s : List Nat) : List (List Nat) :=
  if bufSize = 0 ∨ s = [] then []
  else s.take bufSize :: read_chunks bufSize (s.drop bufSize)
termination_by s.length
decreasing_by
  rename_i h
  push_neg at h
  rcases s with _ | ⟨x, r⟩
  · exact absurd rfl h.2
  · simp only [List.length_drop, List.length_cons]
    omega

/-- Concatenation of a list of chunks. -/
def concatL (cs : List (List Nat)) : List Nat := cs.foldr (· ++ ·) []

theorem concatL_nil : concatL [] = [] := rfl

theorem concatL_cons (c : List Nat) (cs : List (List Nat)) :
    concatL (c :: cs) = c ++ concatL cs := rfl

theorem read_chunks_concat : ∀ (n : Nat) (s : List Nat), s.length ≤ n →
    ∀ (bufSize : Nat), bufSize ≠ 0 → concatL (read_chunks bufSize s) = s := by
  intro n
  induction n with
  | zero =>
    intro s hs bufSize hb
    have : s = [] := List.length_eq_zero.mp (Nat.le_zero.mp hs)
    subst this
    rw [read_chunks]
    simp [concatL]
  | succ n ih =>
    intro s hs bufSize hb
    rw [read_chunks]
    by_cases hnil : s = []
    · simp [hnil, concatL]
    · rw [if_neg (by tauto)]
      rw [concatL_cons]
      have hlt : (s.drop bufSize).length ≤ n := by
        rcases s with _ | ⟨x, r⟩
        · exact absurd rfl hnil
        · simp only [List.length_drop, List.length_cons]
          simp only [List.length_cons] at hs
          omega
      rw [ih _ hlt bufSize hb]
      exact List.take_append_drop bufSize s

theorem read_chunks_ne_nil : ∀ (n : Nat) (s : List Nat), s.length ≤ n →
    ∀ (bufSize : Nat) (ch : List Nat), ch ∈ read_chunks bufSize s → ch ≠ [] := by
  intro n
  induction n with
  | zero =>
    intro s hs bufSize ch hch
    have : s = [] := List.length_eq_zero.mp (Nat.le_zero.mp hs)
    subst this
    rw [read_chunks] at hch
    simp at hch
  | succ n ih =>
    intro s hs bufSize ch hch
    rw [read_chunks] at hch
    split_ifs at hch with h
    · simp at hch
    · push_neg at h
      rcases List.mem_cons.mp hch with h1 | h1
      · subst h1
        rcases s with _ | ⟨x, r⟩
        · exact absurd rfl h.2
        · rcases bufSize with _ | m
          · exact absurd rfl h.1
          · simp
      · have hlt : (s.drop bufSize).length ≤ n := by
          rcases s with _ | ⟨x, r⟩
          · exact absurd rfl h.2
          · simp only [List.length_drop, List.length_cons]
            simp only [List.length_cons] at hs
            omega
        exact ih _ hlt bufSize ch h1

theorem read_chunks_zero (s : List Nat) : read_chunks 0 s = [] := by
  rw [read_chunks]
  simp


theorem length_dropWhile_le (p : Nat → Bool) (l : List Nat) :
    (l.dropWhile p).length ≤ l.length := by
  induction l with
  | nil => simp [List.dropWhile]
  | cons x r ih =>
    cases hx : p x <;> simp [List.dropWhile_cons, hx] <;> omega

/-- Python's `split()` with no separator (both `bytes.split` and
`str.split`): drop leading runs classified as whitespace by `sp`, collect
maximal non-whitespace runs as tokens. -/
def pySplit (sp : Nat → Bool) : List Nat → List (List Nat)
  | [] => []
  | b :: r =>
    if sp b then pySplit sp r
    else (b :: r.takeWhile (fun x => !sp x)) ::
      pySplit sp (r.dropWhile (fun x => !sp x))
termination_by l => l.length
decreasing_by
  · simp only [List.length_cons]
    omega
  · simp only [List.length_cons]
    exact Nat.lt_succ_of_le (length_dropWhile_le _ _)

/-- Token count of a byte/character sequence under the whitespace
classifier `sp`, threading the state "the previous element was whitespace
(or the sequence just started)". A token begins at each non-whitespace
element preceded by whitespace. -/
def tc (sp : Nat → Bool) (prev : Bool) : List Nat → Nat
  | [] => 0
  | b :: r =>
    if sp b then tc sp true r else (if prev then 1 else 0) + tc sp false r

/-- The carried word-boundary state after a sequence: whitespace-ness of
its last element, or the incoming state if it is empty. -/
def endSp (sp : Nat → Bool) (prev : Bool) : List Nat → Bool
  | [] => prev
  | b :: r => endSp sp (sp b) r

theorem tc_append (sp : Nat → Bool) (a b : List Nat) : ∀ (prev : Bool),
    tc sp prev (a ++ b) = tc sp prev a + tc sp (endSp sp prev a) b := by
  induction a with
  | nil => intro prev; simp [tc, endSp]
  | cons x r ih =>
    intro prev
    by_cases hx : sp x <;>
      simp [tc, endSp, hx, ih, Nat.add_assoc]

theorem endSp_append (sp : Nat → Bool) (a b : List Nat) : ∀ (prev : Bool),
    endSp sp prev (a ++ b) = endSp sp (endSp sp prev a) b := by
  induction a with
  | nil => intro prev; simp [endSp]
  | cons x r ih => intro prev; simp [endSp, ih]

theorem endSp_getLast (sp : Nat → Bool) : ∀ (l : List Nat) (prev : Bool)
    (h : l ≠ []), endSp sp prev l = sp (l.getLast h) := by
  intro l
  induction l with
  | nil => intro prev h; exact absurd rfl h
  | cons x r ih =>
    intro prev _
    rcases r with _ | ⟨y, t⟩
    · simp [endSp]
    · rw [List.getLast_cons (by simp)]
      exact ih (sp x) (by simp)

theorem tc_false_dropWhile (sp : Nat → Bool) : ∀ (l : List Nat),
    tc sp false (l.dropWhile (fun x => !sp x)) = tc sp false l := by
  intro l
  induction l with
  | nil => simp [List.dropWhile]
  | cons x r ih =>
    by_cases hx : sp x
    · rw [List.dropWhile_cons_of_neg (by simp [hx])]
    · rw [List.dropWhile_cons_of_pos (by simp [hx])]
      rw [ih]
      simp [tc, hx]

theorem tc_false_eq_true_of_head_sp (sp : Nat → Bool) (l : List Nat)
    (h : ∀ b, l.head? = some b → sp b = true) :
    tc sp false l = tc sp true l := by
  rcases l with _ | ⟨x, r⟩
  · rfl
  · have hx : sp x = true := h x rfl
    simp [tc, hx]

theorem dropWhile_head_sp (sp : Nat → Bool) : ∀ (l : List Nat) (b : Nat),
    (l.dropWhile (fun x => !sp x)).head? = some b → sp b = true := by
  intro l
  induction l with
  | nil => intro b h; simp [List.dropWhile] at h
  | cons x r ih =>
    intro b h
    by_cases hx : sp x
    · rw [List.dropWhile_cons_of_neg (by simp [hx])] at h
      simp only [List.head?_cons, Option.some.injEq] at h
      rw [← h]
      exact hx
    · rw [List.dropWhile_cons_of_pos (by simp [hx])] at h
      exact ih b h

/-- The length of Python's `split()` result is the token count. -/
theorem pySplit_length_aux (sp : Nat → Bool) : ∀ (n : Nat) (l : List Nat),
    l.length ≤ n → (pySplit sp l).length = tc sp true l := by
  intro n
  induction n with
  | zero =>
    intro l hl
    have : l = [] := List.length_eq_zero.mp (Nat.le_zero.mp hl)
    subst this
    simp [pySplit, tc]
  | succ n ih =>
    intro l hl
    rcases l with _ | ⟨x, r⟩
    · simp [pySplit, tc]
    · by_cases hx : sp x
      · rw [pySplit, if_pos hx]
        rw [ih r (by simpa using Nat.le_of_succ_le_succ hl)]
        simp [tc, hx]
      · rw [pySplit, if_neg hx]
        simp only [List.length_cons]
        have hdlen : (r.dropWhile (fun x => !sp x)).length ≤ n := by
          have h1 := length_dropWhile_le (fun x => !sp x) r
          simp only [List.length_cons] at hl
          omega
        rw [ih _ hdlen]
        rw [tc_false_eq_true_of_head_sp sp _ (dropWhile_head_sp sp r) |>.symm,
          tc_false_dropWhile]
        simp [tc, hx]
        omega

theorem pySplit_length (sp : Nat → Bool) (l : List Nat) :
    (pySplit sp l).length = tc sp true l :=
  pySplit_length_aux sp l.length l le_rfl

/-- The configured text encoding. `utf8` and `latin1` stand for the
known-good codecs exercised here; `unknown` stands for any identifier for
which Python's codec lookup raises `LookupError`. -/
inductive Encoding : Type
  | utf8
  | latin1
  | unknown
deriving DecidableEq

/-- One-shot `bytes.decode(encoding, errors='replace')`: `none` models the
`LookupError` raised for an unknown encoding identifier. Latin-1 maps each
byte to the code point of the same value and never fails. -/
def decodeReplace : Encoding → List Nat → Option (List Nat)
  | .utf8, s => some ((utf8RunRaw true s).1.map elemReplace)
  | .latin1, s => some s
  | .unknown, _ => none

/-- One-shot `bytes.decode(encoding, errors='ignore')`. -/
def decodeIgnore : Encoding → List Nat → Option (List Nat)
  | .utf8, s => some ((utf8RunRaw true s).1.filterMap elemKeep)
  | .latin1, s => some s
  | .unknown, _ => none

/-- One incremental call `decoder.decode(chunk, final=False)` of the
decoder from `codecs.getincrementaldecoder(encoding)`: the carried state
is the buffered tail of an incomplete multi-byte sequence. Latin-1
decodes byte-for-byte and never buffers. (Never invoked for `unknown`:
`getincrementaldecoder` raises `LookupError` before any call.) -/
def incDecode : Encoding → List Nat → List Nat → List DecElem × List Nat
  | .utf8, pending, chunk => utf8RunRaw false (pending ++ chunk)
  | .latin1, pending, chunk => ((pending ++ chunk).map .chr, [])
  | .unknown, _, _ => ([], [])

/-- The final flush `decoder.decode(b'', final=True)`. -/
def incFlush : Encoding → List Nat → List DecElem
  | .utf8, pending => (utf8RunRaw true pending).1
  | .latin1, pending => pending.map .chr
  | .unknown, _ => []

/-- The configuration held by a `CCWC` instance: `buffer_size` and
`encoding`. (`buffer_size` is non-negative, as the spec requires; the
source would treat a negative value as a whole-input read.) -/
structure Config where
  bufferSize : Nat
  encoding : Encoding
deriving DecidableEq

/-- `CCWC.count_bytes`. `regular` states that `os.fstat` on the file
descriptor succeeds and reports a regular file (`S_ISREG`); its
`st_size` is then the length of the content. Otherwise the whole stream
is read (in one `read()` if `buffer_size == 0`, else chunk by chunk);
the `except (OSError, AttributeError)` fallback runs the identical
streaming code. -/
def count_bytes (cfg : Config) (regular : Bool) (s : List Nat) : Nat :=
  if regular then s.length
  else if cfg.bufferSize = 0 then s.length
  else (read_chunks cfg.bufferSize s).foldl (fun t ch => t + ch.length) 0

/-- Number of `read` calls `count_bytes` performs: none on the metadata
shortcut, one whole-input `read()` when `buffer_size == 0`, and one per
chunk plus the final empty read otherwise. -/
def count_bytes_reads (cfg : Config) (regular : Bool) (s : List Nat) : Nat :=
  if regular then 0
  else if cfg.bufferSize = 0 then 1
  else (read_chunks cfg.bufferSize s).length + 1

/-- `CCWC.count_lines`: count `b'\n'` (byte 10) over the whole read or
chunk by chunk. -/
def count_lines (cfg : Config) (s : List Nat) : Nat :=
  if cfg.bufferSize = 0 then s.count 10
  else (read_chunks cfg.bufferSize s).foldl (fun t ch => t + ch.count 10) 0

/-- The per-chunk word update of `CCWC.count_words` (and of
`CCWC.count_all`): add `len(chunk.split())`, subtract one when neither
the previous chunk ended in whitespace nor this chunk starts with
whitespace, and carry `chunk[-1:].isspace()`. The total is an `Int`
because the update subtracts. -/
def wordsStep (acc : Int × Bool) (ch : List Nat) : Int × Bool :=
  let total := acc.1 + ((pySplit bytesIsSpace ch).length : Int)
  let first := match ch with
    | [] => false
    | b :: _ => bytesIsSpace b
  let total := if !acc.2 && !first then total - 1 else total
  let lastSp := match ch.getLast? with
    | none => false
    | some b => bytesIsSpace b
  (total, lastSp)

/-- `CCWC.count_words`. With `buffer_size == 0` the whole input is
decoded with `errors='ignore'` and split with `str.split()` (Unicode
whitespace); `none` models the abort on an unknown encoding (the
`LookupError` handler prints the error, after which the unbound
`content` raises and no count is produced). The `except Exception`
rereading branch is unreachable for a supported encoding, since decoding
with `errors='ignore'` does not raise. With a positive `buffer_size`
the chunks are split as raw bytes and corrected at the boundaries. -/
def count_words (cfg : Config) (s : List Nat) : Option Int :=
  if cfg.bufferSize = 0 then
    match decodeIgnore cfg.encoding s with
    | none => none
    | some text => some ((pySplit strIsSpace text).length : Int)
  else
    some (((read_chunks cfg.bufferSize s).foldl wordsStep (0, true)).1)

/-- The per-chunk char update of `CCWC.count_chars` (and of
`CCWC.count_all`): `text = decoder.decode(chunk)`, `total += len(text)`. -/
def charsStep (enc : Encoding) (acc : Nat × List Nat) (ch : List Nat) :
    Nat × List Nat :=
  let r := incDecode enc acc.2 ch
  (acc.1 + (r.1.map elemReplace).length, r.2)

/-- `CCWC.count_chars`. With `buffer_size == 0` the whole input is
decoded with `errors='replace'`; otherwise an incremental decoder runs
over the chunks with a final flush. `none` models the `LookupError`
branch for an unknown encoding (the error is printed and the function
returns no count). The `except Exception` seek-and-reread fallback is
unreachable for a supported encoding, since decoding with
`errors='replace'` does not raise. -/
def count_chars (cfg : Config) (s : List Nat) : Option Nat :=
  if cfg.bufferSize = 0 then
    (decodeReplace cfg.encoding s).map List.length
  else
    match cfg.encoding with
    | .unknown => none
    | enc =>
      let r := (read_chunks cfg.bufferSize s).foldl (charsStep enc) (0, [])
      some (r.1 + ((incFlush enc r.2).map elemReplace).length)

/-- Errors surfaced by `CCWC.count_all`. -/
inductive CountError : Type
  | unsupportedEncoding
deriving DecidableEq

/-- The result record of `CCWC.count_all`
(`{'lines': ..., 'words': ..., 'chars': ..., 'bytes': ...}`). -/
structure Totals where
  lines : Nat
  words : Int
  chars : Nat
  bytes : Nat
deriving DecidableEq

/-- The fused per-chunk state of `CCWC.count_all`: the four running
totals, the word-boundary flag and the decoder carry-over. -/
structure AllState where
  lines : Nat
  words : Int
  chars : Nat
  bytes : Nat
  lastSpace : Bool
  pending : List Nat

/-- The per-chunk body of `CCWC.count_all`'s streaming loop. -/
def allStep (enc : Encoding) (st : AllState) (ch : List Nat) : AllState :=
  let first := match ch with
    | [] => false
    | b :: _ => bytesIsSpace b
  let words := st.words + ((pySplit bytesIsSpace ch).length : Int)
  let words := if !st.lastSpace && !first then words - 1 else words
  let lastSpace := match ch.getLast? with
    | none => false
    | some b => bytesIsSpace b
  let r := incDecode enc st.pending ch
  { lines := st.lines + ch.count 10
    words := words
    chars := st.chars + (r.1.map elemReplace).length
    bytes := st.bytes + ch.length
    lastSpace := lastSpace
    pending := r.2 }

/-- `CCWC.count_all`: builds the incremental decoder first (`sys.exit(1)`
on `LookupError`, modelled as the error result), then either counts the
whole input in one read or streams the fused loop over the chunks. The
two `except Exception` fallbacks in the whole-input branch are
unreachable for a supported encoding (decoding with `errors='ignore'` or
`errors='replace'` does not raise); the `0` defaults in the model stand
in those dead arms. -/
def count_all (cfg : Config) (s : List Nat) : Except CountError Totals :=
  match cfg.encoding with
  | .unknown => .error .unsupportedEncoding
  | enc =>
    if cfg.bufferSize = 0 then
      let words : Int := match decodeIgnore enc s with
        | some text => ((pySplit strIsSpace text).length : Int)
        | none => 0
      let chars : Nat := match decodeReplace enc s with
        | some text => text.length
        | none => 0
      .ok { lines := s.count 10, words := words, chars := chars,
            bytes := s.length }
    else
      let st := (read_chunks cfg.bufferSize s).foldl (allStep enc)
        ⟨0, 0, 0, 0, true, []⟩
      .ok { lines := st.lines, words := st.words,
            chars := st.chars + ((incFlush enc st.pending).map elemReplace).length,
            bytes := st.bytes }

theorem read_chunks_concat_eq (bufSize : Nat) (h : bufSize ≠ 0) (s : List Nat) :
    concatL (read_chunks bufSize s) = s :=
  read_chunks_concat s.length s le_rfl bufSize h

theorem read_chunks_mem_ne_nil (bufSize : Nat) (s : List Nat) :
    ∀ ch ∈ read_chunks bufSize s, ch ≠ [] :=
  fun ch hch => read_chunks_ne_nil s.length s le_rfl bufSize ch hch

theorem endSp_getLastQ (sp : Nat → Bool) : ∀ (l : List Nat) (prev : Bool),
    endSp sp prev l = match l.getLast? with
      | none => prev
      | some b => sp b := by
  intro l
  induction l with
  | nil => intro prev; simp [endSp]
  | cons x r ih =>
    intro prev
    rcases r with _ | ⟨y, t⟩
    · simp [endSp]
    · rw [endSp, ih (sp x), List.getLast?_cons_cons,
        List.getLast?_eq_getLast (y :: t) (by simp)]

theorem wordsStep_spec (prev : Bool) (t : Int) (b : Nat) (r : List Nat) :
    wordsStep (t, prev) (b :: r) =
      (t + ((tc bytesIsSpace prev (b :: r) : Nat) : Int),
        endSp bytesIsSpace prev (b :: r)) := by
  have hsplit := pySplit_length bytesIsSpace (b :: r)
  have hgl := List.getLast?_eq_getLast (b :: r) (by simp)
  cases prev <;> cases hb : bytesIsSpace b <;>
    simp [wordsStep, hsplit, tc, hb, endSp_getLastQ bytesIsSpace, hgl,
      Prod.ext_iff] <;>
    push_cast <;> ring

theorem wordsFold_spec : ∀ (chunks : List (List Nat)),
    (∀ ch ∈ chunks, ch ≠ []) → ∀ (t : Int) (prev : Bool),
    chunks.foldl wordsStep (t, prev) =
      (t + ((tc bytesIsSpace prev (concatL chunks) : Nat) : Int),
        endSp bytesIsSpace prev (concatL chunks)) := by
  intro chunks
  induction chunks with
  | nil => intro hne t prev; simp [concatL, tc, endSp]
  | cons ch rest ih =>
    intro hne t prev
    have hch : ch ≠ [] := hne ch (by simp)
    rcases ch with _ | ⟨b, r⟩
    · exact absurd rfl hch
    · rw [List.foldl_cons, wordsStep_spec,
        ih (fun c hc => hne c (by simp [hc]))]
      rw [concatL_cons, tc_append, endSp_append]
      simp only [Prod.mk.injEq]
      constructor
      · push_cast
        ring
      · trivial

/-- The chunked word count equals the raw-byte token count of the whole
input, for every positive buffer size. -/
theorem count_words_chunked (cfg : Config) (s : List Nat)
    (h : cfg.bufferSize ≠ 0) :
    count_words cfg s = some ((tc bytesIsSpace true s : Nat) : Int) := by
  rw [count_words, if_neg h,
    wordsFold_spec _ (read_chunks_mem_ne_nil cfg.bufferSize s) 0 true,
    read_chunks_concat_eq cfg.bufferSize h s]
  simp

theorem additive_fold (g : List Nat → Nat)
    (hg : ∀ a b, g (a ++ b) = g a + g b) (hg0 : g [] = 0) :
    ∀ (chunks : List (List Nat)) (t : Nat),
    chunks.foldl (fun t ch => t + g ch) t = t + g (concatL chunks) := by
  intro chunks
  induction chunks with
  | nil => intro t; simp [concatL, hg0]
  | cons ch rest ih =>
    intro t
    rw [List.foldl_cons, ih, concatL_cons, hg]
    ring

/-- `count_lines` equals the number of newline bytes in the input, for
every buffer size. -/
theorem count_lines_eq (cfg : Config) (s : List Nat) :
    count_lines cfg s = s.count 10 := by
  rw [count_lines]
  by_cases h : cfg.bufferSize = 0
  · rw [if_pos h]
  · rw [if_neg h,
      additive_fold (fun ch => ch.count 10)
        (fun a b => List.count_append 10 a b) rfl,
      read_chunks_concat_eq cfg.bufferSize h s]
    simp

/-- `count_bytes` equals the input length on every path. -/
theorem count_bytes_eq (cfg : Config) (regular : Bool) (s : List Nat) :
    count_bytes cfg regular s = s.length := by
  rw [count_bytes]
  by_cases hr : regular
  · rw [if_pos hr]
  · rw [if_neg hr]
    by_cases h : cfg.bufferSize = 0
    · rw [if_pos h]
    · rw [if_neg h,
        additive_fold (fun ch => ch.length)
          (fun a b => List.length_append a b) rfl,
        read_chunks_concat_eq cfg.bufferSize h s]
      simp

theorem charsFold_utf8 : ∀ (chunks : List (List Nat)) (t : Nat) (p : List Nat),
    (chunks.foldl (charsStep .utf8) (t, p)).1 +
      ((incFlush .utf8 (chunks.foldl (charsStep .utf8) (t, p)).2).map
        elemReplace).length =
    t + (utf8RunRaw true (p ++ concatL chunks)).1.length := by
  intro chunks
  induction chunks with
  | nil =>
    intro t p
    simp [incFlush, concatL]
  | cons ch rest ih =>
    intro t p
    rw [List.foldl_cons]
    have hstep : charsStep .utf8 (t, p) ch =
        (t + (utf8RunRaw false (p ++ ch)).1.length,
          (utf8RunRaw false (p ++ ch)).2) := by
      simp [charsStep, incDecode]
    rw [hstep, ih]
    rw [concatL_cons, show p ++ (ch ++ concatL rest) =
      (p ++ ch) ++ concatL rest from (List.append_assoc p ch _).symm]
    rw [utf8RunRaw_append (p ++ ch) (concatL rest) true]
    simp only [List.length_append]
    omega

theorem charsFold_latin1 : ∀ (chunks : List (List Nat)) (t : Nat)
    (p : List Nat),
    (chunks.foldl (charsStep .latin1) (t, p)).1 +
      ((incFlush .latin1 (chunks.foldl (charsStep .latin1) (t, p)).2).map
        elemReplace).length =
    t + (p ++ concatL chunks).length := by
  intro chunks
  induction chunks with
  | nil =>
    intro t p
    simp [incFlush, concatL]
  | cons ch rest ih =>
    intro t p
    rw [List.foldl_cons]
    have hstep : charsStep .latin1 (t, p) ch =
        (t + (p ++ ch).length, []) := by
      simp [charsStep, incDecode]
    rw [hstep, ih]
    simp [concatL_cons]
    omega

/-- The char count under UTF-8 equals the length of the one-shot
`errors='replace'` decoding of the whole input, for every buffer size. -/
theorem count_chars_utf8 (cfg : Config) (s : List Nat)
    (h : cfg.encoding = .utf8) :
    count_chars cfg s = some (utf8RunRaw true s).1.length := by
  by_cases hb : cfg.bufferSize = 0
  · rw [count_chars, if_pos hb, h]
    simp [decodeReplace]
  · rw [count_chars, if_neg hb, h]
    simp only []
    rw [charsFold_utf8 (read_chunks cfg.bufferSize s) 0 [],
      List.nil_append, read_chunks_concat_eq cfg.bufferSize hb s]
    simp

/-- The char count under Latin-1 equals the byte length (each byte is one
code point), for every buffer size. -/
theorem count_chars_latin1 (cfg : Config) (s : List Nat)
    (h : cfg.encoding = .latin1) :
    count_chars cfg s = some s.length := by
  by_cases hb : cfg.bufferSize = 0
  · rw [count_chars, if_pos hb, h]
    simp [decodeReplace]
  · rw [count_chars, if_neg hb, h]
    simp only []
    rw [charsFold_latin1 (read_chunks cfg.bufferSize s) 0 [],
      List.nil_append, read_chunks_concat_eq cfg.bufferSize hb s]
    simp

theorem allStep_lines (enc : Encoding) (st : AllState) (ch : List Nat) :
    (allStep enc st ch).lines = st.lines + ch.count 10 := rfl

theorem allStep_bytes (enc : Encoding) (st : AllState) (ch : List Nat) :
    (allStep enc st ch).bytes = st.bytes + ch.length := rfl

theorem allStep_words (enc : Encoding) (st : AllState) (ch : List Nat) :
    ((allStep enc st ch).words, (allStep enc st ch).lastSpace) =
      wordsStep (st.words, st.lastSpace) ch := rfl

theorem allStep_chars (enc : Encoding) (st : AllState) (ch : List Nat) :
    ((allStep enc st ch).chars, (allStep enc st ch).pending) =
      charsStep enc (st.chars, st.pending) ch := rfl

theorem allFold_lines (enc : Encoding) : ∀ (chunks : List (List Nat))
    (st : AllState),
    (chunks.foldl (allStep enc) st).lines =
      chunks.foldl (fun t ch => t + ch.count 10) st.lines := by
  intro chunks
  induction chunks with
  | nil => intro st; rfl
  | cons ch rest ih =>
    intro st
    rw [List.foldl_cons, List.foldl_cons, ih, allStep_lines]

theorem allFold_bytes (enc : Encoding) : ∀ (chunks : List (List Nat))
    (st : AllState),
    (chunks.foldl (allStep enc) st).bytes =
      chunks.foldl (fun t ch => t + ch.length) st.bytes := by
  intro chunks
  induction chunks with
  | nil => intro st; rfl
  | cons ch rest ih =>
    intro st
    rw [List.foldl_cons, List.foldl_cons, ih, allStep_bytes]

theorem allFold_words (enc : Encoding) : ∀ (chunks : List (List Nat))
    (st : AllState),
    ((chunks.foldl (allStep enc) st).words,
      (chunks.foldl (allStep enc) st).lastSpace) =
      chunks.foldl wordsStep (st.words, st.lastSpace) := by
  intro chunks
  induction chunks with
  | nil => intro st; rfl
  | cons ch rest ih =>
    intro st
    rw [List.foldl_cons, List.foldl_cons, ih, allStep_words]

theorem allFold_chars (enc : Encoding) : ∀ (chunks : List (List Nat))
    (st : AllState),
    ((chunks.foldl (allStep enc) st).chars,
      (chunks.foldl (allStep enc) st).pending) =
      chunks.foldl (charsStep enc) (st.chars, st.pending) := by
  intro chunks
  induction chunks with
  | nil => intro st; rfl
  | cons ch rest ih =>
    intro st
    rw [List.foldl_cons, List.foldl_cons, ih, allStep_chars]

/-- Canonical form of `count_all` under UTF-8. -/
theorem count_all_utf8 (cfg : Config) (s : List Nat)
    (h : cfg.encoding = .utf8) :
    count_all cfg s = .ok {
      lines := s.count 10,
      words := if cfg.bufferSize = 0
        then ((pySplit strIsSpace
          ((utf8RunRaw true s).1.filterMap elemKeep)).length : Int)
        else ((tc bytesIsSpace true s : Nat) : Int),
      chars := (utf8RunRaw true s).1.length,
      bytes := s.length } := by
  by_cases hb : cfg.bufferSize = 0
  · simp only [count_all, h, if_pos hb]
    simp [decodeIgnore, decodeReplace]
  · simp only [count_all, h, if_neg hb]
    set chunks := read_chunks cfg.bufferSize s with hchunks
    have hconcat : concatL chunks = s :=
      read_chunks_concat_eq cfg.bufferSize hb s
    have hne : ∀ ch ∈ chunks, ch ≠ [] :=
      read_chunks_mem_ne_nil cfg.bufferSize s
    set st := chunks.foldl (allStep .utf8) ⟨0, 0, 0, 0, true, []⟩ with hst
    have hlines : st.lines = s.count 10 := by
      rw [hst, allFold_lines,
        additive_fold (fun ch => ch.count 10)
          (fun a b => List.count_append 10 a b) rfl, hconcat]
      simp
    have hbytes : st.bytes = s.length := by
      rw [hst, allFold_bytes,
        additive_fold (fun ch => ch.length)
          (fun a b => List.length_append a b) rfl, hconcat]
      simp
    have hwpair := allFold_words Encoding.utf8 chunks ⟨0, 0, 0, 0, true, []⟩
    rw [wordsFold_spec chunks hne 0 true, hconcat] at hwpair
    have hwords : st.words = ((tc bytesIsSpace true s : Nat) : Int) := by
      have := congrArg Prod.fst hwpair
      simpa using this
    have hcpair := allFold_chars Encoding.utf8 chunks ⟨0, 0, 0, 0, true, []⟩
    have hchars : st.chars +
        ((incFlush .utf8 st.pending).map elemReplace).length =
        (utf8RunRaw true s).1.length := by
      have h1 : st.chars = (chunks.foldl (charsStep .utf8) (0, [])).1 := by
        rw [← hcpair]
      have h2 : st.pending = (chunks.foldl (charsStep .utf8) (0, [])).2 := by
        rw [← hcpair]
      rw [h1, h2, charsFold_utf8 chunks 0 [], List.nil_append, hconcat]
      simp
    simp only [Except.ok.injEq, Totals.mk.injEq]
    exact ⟨hlines, hwords, hchars, hbytes⟩

/-- Canonical form of `count_all` under Latin-1. -/
theorem count_all_latin1 (cfg : Config) (s : List Nat)
    (h : cfg.encoding = .latin1) :
    count_all cfg s = .ok {
      lines := s.count 10,
      words := if cfg.bufferSize = 0
        then ((pySplit strIsSpace s).length : Int)
        else ((tc bytesIsSpace true s : Nat) : Int),
      chars := s.length,
      bytes := s.length } := by
  by_cases hb : cfg.bufferSize = 0
  · simp only [count_all, h, if_pos hb]
    simp [decodeIgnore, decodeReplace]
  · simp only [count_all, h, if_neg hb]
    set chunks := read_chunks cfg.bufferSize s with hchunks
    have hconcat : concatL chunks = s :=
      read_chunks_concat_eq cfg.bufferSize hb s
    have hne : ∀ ch ∈ chunks, ch ≠ [] :=
      read_chunks_mem_ne_nil cfg.bufferSize s
    set st := chunks.foldl (allStep .latin1) ⟨0, 0, 0, 0, true, []⟩ with hst
    have hlines : st.lines = s.count 10 := by
      rw [hst, allFold_lines,
        additive_fold (fun ch => ch.count 10)
          (fun a b => List.count_append 10 a b) rfl, hconcat]
      simp
    have hbytes : st.bytes = s.length := by
      rw [hst, allFold_bytes,
        additive_fold (fun ch => ch.length)
          (fun a b => List.length_append a b) rfl, hconcat]
      simp
    have hwpair := allFold_words Encoding.latin1 chunks ⟨0, 0, 0, 0, true, []⟩
    rw [wordsFold_spec chunks hne 0 true, hconcat] at hwpair
    have hwords : st.words = ((tc bytesIsSpace true s : Nat) : Int) := by
      have := congrArg Prod.fst hwpair
      simpa using this
    have hcpair := allFold_chars Encoding.latin1 chunks ⟨0, 0, 0, 0, true, []⟩
    have hchars : st.chars +
        ((incFlush .latin1 st.pending).map elemReplace).length =
        s.length := by
      have h1 : st.chars = (chunks.foldl (charsStep .latin1) (0, [])).1 := by
        rw [← hcpair]
      have h2 : st.pending = (chunks.foldl (charsStep .latin1) (0, [])).2 := by
        rw [← hcpair]
      rw [h1, h2, charsFold_latin1 chunks 0 [], List.nil_append, hconcat]
      simp
    simp only [Except.ok.injEq, Totals.mk.injEq]
    exact ⟨hlines, hwords, hchars, hbytes⟩

theorem count_words_zero_utf8 (cfg : Config) (s : List Nat)
    (h : cfg.encoding = .utf8) (hb : cfg.bufferSize = 0) :
    count_words cfg s = some ((pySplit strIsSpace
      ((utf8RunRaw true s).1.filterMap elemKeep)).length : Int) := by
  rw [count_words, if_pos hb, h]
  simp [decodeIgnore]

theorem count_words_zero_latin1 (cfg : Config) (s : List Nat)
    (h : cfg.encoding = .latin1) (hb : cfg.bufferSize = 0) :
    count_words cfg s = some ((pySplit strIsSpace s).length : Int) := by
  rw [count_words, if_pos hb, h]
  simp [decodeIgnore]

/-- Outcome of `open(filename, 'rb')` for one name in the batch, as seen
by `get_stream`. `ok` carries the content the open handle would stream
and whether `os.fstat` reports a regular file. -/
inductive OpenOutcome : Type
  | ok (content : List Nat) (regular : Bool)
  | notFound
  | permissionDenied
  | otherError
deriving DecidableEq

/-- `get_stream`: yields the opened stream, or prints a message and calls
`sys.exit(1)` on any open failure. The `SystemExit` it raises is modelled
as `Except.error` carrying the exit code; nothing in `ccwc.py` catches
`SystemExit` (the per-file handler catches only `Exception`), so it
terminates the process. -/
def get_stream : OpenOutcome → Except Nat (List Nat × Bool)
  | .ok content regular => .ok (content, regular)
  | .notFound => .error 1
  | .permissionDenied => .error 1
  | .otherError => .error 1

/-- The per-file loop of `produce_count_result` on the multi-metric path
(two or more requested metrics, so `count_all` runs per file): returns the
per-file totals in order, or the exit code if the process exits first.
A `sys.exit(1)` from `get_stream` or from `count_all` (unknown encoding)
propagates as `SystemExit` past the `except Exception: continue` handler
and ends the batch on the spot. -/
def produce_count_result (cfg : Config) :
    List OpenOutcome → Except Nat (List Totals)
  | [] => .ok []
  | f :: rest =>
    match get_stream f with
    | .error code => .error code
    | .ok (content, _) =>
      match count_all cfg content with
      | .error _ => .error 1
      | .ok t => (produce_count_result cfg rest).map (t :: ·)

/-- Claim C1, as stated, is false: `count_words` on the bytes
`b'a\xc2\xa0b'` (the letter a, U+00A0 NO-BREAK SPACE in UTF-8, the letter
b) returns 1 with chunk size 4096 — `bytes.split()` does not treat
`\xc2\xa0` as whitespace — but 2 with chunk size 0, where the input is
decoded first and `str.split()` splits at U+00A0. -/
theorem claim_c1_counterexample :
    count_words ⟨4096, .utf8⟩ [97, 194, 160, 98] = some 1 ∧
    count_words ⟨0, .utf8⟩ [97, 194, 160, 98] = some 2 ∧
    count_words ⟨4096, .utf8⟩ [97, 194, 160, 98] ≠
      count_words ⟨0, .utf8⟩ [97, 194, 160, 98] := by
  refine ⟨?_, ?_, ?_⟩
  · simp [count_words, read_chunks, wordsStep, pySplit, bytesIsSpace]
  · simp [count_words, decodeIgnore, utf8RunRaw, utf8Step, pySplit, elemKeep,
      isCont, validSecond, cp2, strIsSpace]
  · simp [count_words, read_chunks, wordsStep, pySplit, bytesIsSpace,
      decodeIgnore, utf8RunRaw, utf8Step, elemKeep, isCont, validSecond,
      cp2, strIsSpace]

/-- Claim C1 (amended): the boundary correction makes the word count
chunk-size independent across all positive chunk sizes — for any two
positive chunk sizes the counts agree, both equalling the number of
maximal ASCII-non-whitespace runs of the raw bytes. The chunk-size-0
path instead decodes the input (`errors='ignore'`) and splits the text at
Unicode whitespace, and can therefore differ. -/
theorem claim_c1_amended (e : Encoding) (s : List Nat) (c1 c2 : Nat)
    (h1 : c1 ≠ 0) (h2 : c2 ≠ 0) :
    count_words ⟨c1, e⟩ s = count_words ⟨c2, e⟩ s ∧
    count_words ⟨c1, e⟩ s = some ((tc bytesIsSpace true s : Nat) : Int) := by
  rw [count_words_chunked ⟨c1, e⟩ s h1, count_words_chunked ⟨c2, e⟩ s h2]
  exact ⟨rfl, rfl⟩

theorem claim_c1_amended_witness :
    (1 : Nat) ≠ 0 ∧ (7 : Nat) ≠ 0 ∧
    (count_words ⟨1, .utf8⟩ [104, 105, 32, 119] =
        count_words ⟨7, .utf8⟩ [104, 105, 32, 119] ∧
      count_words ⟨1, .utf8⟩ [104, 105, 32, 119] =
        some ((tc bytesIsSpace true [104, 105, 32, 119] : Nat) : Int)) :=
  ⟨by decide, by decide,
    claim_c1_amended .utf8 [104, 105, 32, 119] 1 7 (by decide) (by decide)⟩

/-- Claim C2: for every input, chunk size and supported encoding, the
single-pass `count_all` agrees field by field with the four dedicated
counters run independently on a fresh copy of the same input (hence any
projection to a requested subset of two or more metrics agrees as well). -/
theorem claim_c2_single_pass (cfg : Config) (regular : Bool) (s : List Nat)
    (h : cfg.encoding = .utf8 ∨ cfg.encoding = .latin1) :
    ∃ t : Totals, count_all cfg s = .ok t ∧
      t.lines = count_lines cfg s ∧
      count_words cfg s = some t.words ∧
      count_chars cfg s = some t.chars ∧
      t.bytes = count_bytes cfg regular s := by
  rcases h with h | h
  · refine ⟨_, count_all_utf8 cfg s h, ?_, ?_, ?_, ?_⟩
    · rw [count_lines_eq]
    · by_cases hb : cfg.bufferSize = 0
      · rw [count_words_zero_utf8 cfg s h hb]
        simp [hb]
      · rw [count_words_chunked cfg s hb]
        simp [hb]
    · rw [count_chars_utf8 cfg s h]
    · rw [count_bytes_eq]
  · refine ⟨_, count_all_latin1 cfg s h, ?_, ?_, ?_, ?_⟩
    · rw [count_lines_eq]
    · by_cases hb : cfg.bufferSize = 0
      · rw [count_words_zero_latin1 cfg s h hb]
        simp [hb]
      · rw [count_words_chunked cfg s hb]
        simp [hb]
    · rw [count_chars_latin1 cfg s h]
    · rw [count_bytes_eq]

theorem claim_c2_single_pass_witness :
    ∃ t : Totals, count_all ⟨5, .utf8⟩ [104, 105] = .ok t ∧
      t.lines = count_lines ⟨5, .utf8⟩ [104, 105] ∧
      count_words ⟨5, .utf8⟩ [104, 105] = some t.words ∧
      count_chars ⟨5, .utf8⟩ [104, 105] = some t.chars ∧
      t.bytes = count_bytes ⟨5, .utf8⟩ false [104, 105] :=
  claim_c2_single_pass ⟨5, .utf8⟩ false [104, 105] (Or.inl rfl)

/-- Claim C3: under UTF-8, the char count with any positive chunk size —
in particular one that splits a multi-byte character across a chunk
boundary — equals the char count with chunk size 0, because the
incremental decoder buffers the partial bytes between chunks and the
final flush emits any character completed by trailing bytes. -/
theorem claim_c3_chars_boundary (s : List Nat) (c : Nat) (h : c ≠ 0) :
    count_chars ⟨c, .utf8⟩ s = count_chars ⟨0, .utf8⟩ s := by
  rw [count_chars_utf8 ⟨c, .utf8⟩ s rfl, count_chars_utf8 ⟨0, .utf8⟩ s rfl]

theorem claim_c3_chars_boundary_witness :
    (2 : Nat) ≠ 0 ∧
    count_chars ⟨2, .utf8⟩ [97, 226, 130, 172, 98] =
      count_chars ⟨0, .utf8⟩ [97, 226, 130, 172, 98] ∧
    count_chars ⟨2, .utf8⟩ [97, 226, 130, 172, 98] = some 3 :=
  ⟨by decide, claim_c3_chars_boundary [97, 226, 130, 172, 98] 2 (by decide),
    by simp [count_chars, read_chunks, charsStep, incDecode, incFlush,
      utf8RunRaw, utf8Step, elemReplace, isCont, validSecond, cp3]⟩

/-- Claim C4: `count_bytes` returns exactly the number of input bytes for
every chunk size and on both the metadata-shortcut and streaming paths;
on the regular-file path it performs no read at all, so in particular a
zero-byte regular file yields 0 without any read. -/
theorem claim_c4_count_bytes (cfg : Config) (regular : Bool) (s : List Nat) :
    count_bytes cfg regular s = s.length ∧
    (regular = true → count_bytes_reads cfg regular s = 0) ∧
    (regular = true → s = [] → count_bytes cfg regular s = 0) := by
  refine ⟨count_bytes_eq cfg regular s, ?_, ?_⟩
  · intro hr
    rw [count_bytes_reads, if_pos hr]
  · intro hr hs
    rw [count_bytes_eq, hs]
    rfl

theorem claim_c4_count_bytes_witness :
    count_bytes ⟨4096, .utf8⟩ true [] = ([] : List Nat).length ∧
    (true = true → count_bytes_reads ⟨4096, .utf8⟩ true [] = 0) ∧
    (true = true → ([] : List Nat) = [] →
      count_bytes ⟨4096, .utf8⟩ true [] = 0) :=
  claim_c4_count_bytes ⟨4096, .utf8⟩ true []

/-- Claim C5, as stated ("every counting operation configured with an
unknown encoding reports it and aborts"), is false: `count_words` with a
positive chunk size is configured with the unknown encoding yet never
consults it — it reports nothing and returns a normal count. -/
theorem claim_c5_counterexample :
    count_words ⟨3, .unknown⟩ [104] = some 1 := by
  simp [count_words, read_chunks, wordsStep, pySplit, bytesIsSpace]

/-- Claim C5 (amended): the operations that consult the encoding do
behave as claimed — `count_chars` (every chunk size) and whole-input
(`chunk size 0`) `count_words` report the unknown encoding as a
configuration error and produce no count, and `count_all` (every chunk
size) reports it and exits fatally — while `count_lines`, `count_bytes`
and `count_words` with a positive chunk size never consult the encoding
and return normal counts even when it is unknown. An engine configured
with a known-good encoding never produces this error. -/
theorem claim_c5_amended (cfg : Config) (s : List Nat) (regular : Bool) :
    (cfg.encoding = .unknown →
      count_chars cfg s = none ∧
      count_all cfg s = .error .unsupportedEncoding ∧
      (cfg.bufferSize = 0 → count_words cfg s = none) ∧
      count_lines cfg s = s.count 10 ∧
      count_bytes cfg regular s = s.length ∧
      (cfg.bufferSize ≠ 0 →
        count_words cfg s = some ((tc bytesIsSpace true s : Nat) : Int))) ∧
    ((cfg.encoding = .utf8 ∨ cfg.encoding = .latin1) →
      (∃ n, count_chars cfg s = some n) ∧
      (∃ t, count_all cfg s = .ok t) ∧
      (∃ w, count_words cfg s = some w)) := by
  constructor
  · intro h
    refine ⟨?_, ?_, ?_, count_lines_eq cfg s, count_bytes_eq cfg regular s,
      fun hb => count_words_chunked cfg s hb⟩
    · by_cases hb : cfg.bufferSize = 0
      · rw [count_chars, if_pos hb, h]
        rfl
      · rw [count_chars, if_neg hb, h]
    · rw [count_all, h]
    · intro hb
      rw [count_words, if_pos hb, h]
      rfl
  · intro h
    have hw : ∃ w, count_words cfg s = some w := by
      by_cases hb : cfg.bufferSize = 0
      · rcases h with h | h
        · exact ⟨_, count_words_zero_utf8 cfg s h hb⟩
        · exact ⟨_, count_words_zero_latin1 cfg s h hb⟩
      · exact ⟨_, count_words_chunked cfg s hb⟩
    rcases h with h | h
    · exact ⟨⟨_, count_chars_utf8 cfg s h⟩, ⟨_, count_all_utf8 cfg s h⟩, hw⟩
    · exact ⟨⟨_, count_chars_latin1 cfg s h⟩, ⟨_, count_all_latin1 cfg s h⟩, hw⟩

theorem claim_c5_amended_witness :
    ((⟨3, .unknown⟩ : Config).encoding = .unknown →
      count_chars ⟨3, .unknown⟩ [104] = none ∧
      count_all ⟨3, .unknown⟩ [104] = .error .unsupportedEncoding ∧
      ((3 : Nat) = 0 → count_words ⟨3, .unknown⟩ [104] = none) ∧
      count_lines ⟨3, .unknown⟩ [104] = [104].count 10 ∧
      count_bytes ⟨3, .unknown⟩ false [104] = [104].length ∧
      ((3 : Nat) ≠ 0 → count_words ⟨3, .unknown⟩ [104] =
        some ((tc bytesIsSpace true [104] : Nat) : Int))) ∧
    (((⟨3, .unknown⟩ : Config).encoding = .utf8 ∨
        (⟨3, .unknown⟩ : Config).encoding = .latin1) →
      (∃ n, count_chars ⟨3, .unknown⟩ [104] = some n) ∧
      (∃ t, count_all ⟨3, .unknown⟩ [104] = .ok t) ∧
      (∃ w, count_words ⟨3, .unknown⟩ [104] = some w)) :=
  claim_c5_amended ⟨3, .unknown⟩ [104] false

/-- Claim C6 is what the code should do but does not: a failed open is
reported and then `get_stream` calls `sys.exit(1)`, whose `SystemExit`
bypasses the per-file `except Exception: continue` handler in
`produce_count_result`, so the whole batch ends with exit code 1 and the
remaining files are never processed — the file is not skipped. The second
conjunct shows the surviving file alone would have been counted. -/
theorem claim_c6_batch_abort :
    produce_count_result ⟨0, .utf8⟩ [.notFound, .ok [97, 98, 10] false] =
      .error 1 ∧
    produce_count_result ⟨0, .utf8⟩ [.ok [97, 98, 10] false] =
      .ok [⟨1, 1, 3, 3⟩] := by
  constructor
  · rfl
  · rw [produce_count_result]
    simp only [get_stream]
    rw [count_all_utf8 ⟨0, .utf8⟩ [97, 98, 10] rfl]
    simp only [produce_count_result]
    have h1 : (pySplit strIsSpace
        ((utf8RunRaw true [97, 98, 10]).1.filterMap elemKeep)).length = 1 := by
      simp [utf8RunRaw, utf8Step, pySplit, elemKeep, strIsSpace]
    have h2 : (utf8RunRaw true [97, 98, 10]).1.length = 3 := by
      simp [utf8RunRaw, utf8Step]
    simp [h1, h2, Except.map]

/-- Claim C7, as stated, is false: with chunk size 0 the chunk reader
produces no chunks at all — `file.read(0)` returns an empty bytes object,
which the loop takes as end of stream — rather than one chunk holding the
entire input followed by an empty terminal chunk. -/
theorem claim_c7_counterexample :
    read_chunks 0 [97] = [] ∧
    read_chunks 0 [97] ≠ [[97]] ∧
    read_chunks 0 [97] ≠ [[97], []] := by
  refine ⟨?_, ?_, ?_⟩ <;> simp [read_chunks]

/-- Claim C7 (amended): with chunk size 0 the chunk reader yields no
chunks (the zero-length read signals end of stream immediately), and it
never yields an empty chunk at any size — the empty read terminates the
iteration without being yielded. The whole-input single read at chunk
size 0 is performed instead by each counter's dedicated branch, e.g. the
streaming byte counter then does exactly one `read()`. -/
theorem claim_c7_amended :
    (∀ s : List Nat, read_chunks 0 s = []) ∧
    (∀ (b : Nat) (s ch : List Nat), ch ∈ read_chunks b s → ch ≠ []) ∧
    (∀ (cfg : Config) (s : List Nat), cfg.bufferSize = 0 →
      count_bytes_reads cfg false s = 1) := by
  refine ⟨read_chunks_zero, ?_, ?_⟩
  · intro b s ch hch
    exact read_chunks_mem_ne_nil b s ch hch
  · intro cfg s hb
    rw [count_bytes_reads, if_neg (by simp), if_pos hb]

theorem claim_c7_amended_witness :
    read_chunks 0 [97, 98] = [] ∧
    ([97] ∈ read_chunks 1 [97, 98] → [97] ≠ []) ∧
    count_bytes_reads ⟨0, .utf8⟩ false [97, 98] = 1 :=
  ⟨claim_c7_amended.1 [97, 98],
    claim_c7_amended.2.1 1 [97, 98] [97],
    claim_c7_amended.2.2 ⟨0, .utf8⟩ [97, 98] rfl⟩

/-- Claim C8: `count_lines` returns the number of newline bytes (10)
across the chunk stream for every chunk size: `a\nb\nc` yields 2,
`a\nb\nc\n` yields 3, and empty input yields 0. -/
theorem claim_c8_count_lines (cfg : Config) (s : List Nat) :
    count_lines cfg s = s.count 10 ∧
    count_lines cfg [97, 10, 98, 10, 99] = 2 ∧
    count_lines cfg [97, 10, 98, 10, 99, 10] = 3 ∧
    count_lines cfg [] = 0 := by
  refine ⟨count_lines_eq cfg s, ?_, ?_, ?_⟩ <;>
    rw [count_lines_eq] <;> decide

/-- Claim C9: whenever the encoding is a supported one, the char count of
`count_chars` — for every chunk size, including 0 where decoding with
`errors='replace'` always succeeds — and the `chars` field of `count_all`
equal the length of the text obtained by decoding the whole input under
the configured encoding with malformed sequences replaced by the
substitution character, never the raw byte length. -/
theorem claim_c9_chars_decoded (cfg : Config) (s : List Nat)
    (h : cfg.encoding ≠ .unknown) :
    ∃ text : List Nat, decodeReplace cfg.encoding s = some text ∧
      count_chars cfg s = some text.length ∧
      ∃ t : Totals, count_all cfg s = .ok t ∧ t.chars = text.length := by
  cases henc : cfg.encoding with
  | unknown => exact absurd henc h
  | utf8 =>
    refine ⟨(utf8RunRaw true s).1.map elemReplace, rfl, ?_, ?_⟩
    · rw [count_chars_utf8 cfg s henc]
      simp
    · exact ⟨_, count_all_utf8 cfg s henc, by simp⟩
  | latin1 =>
    refine ⟨s, rfl, ?_, ?_⟩
    · rw [count_chars_latin1 cfg s henc]
    · exact ⟨_, count_all_latin1 cfg s henc, by simp⟩

theorem claim_c9_chars_decoded_witness :
    ∃ text : List Nat,
      decodeReplace (⟨1, .utf8⟩ : Config).encoding [97, 226, 130, 172] =
        some text ∧
      count_chars ⟨1, .utf8⟩ [97, 226, 130, 172] = some text.length ∧
      ∃ t : Totals, count_all ⟨1, .utf8⟩ [97, 226, 130, 172] = .ok t ∧
        t.chars = text.length :=
  claim_c9_chars_decoded ⟨1, .utf8⟩ [97, 226, 130, 172] (by decide)

/-- Claim C10: with a positive chunk size, `count_lines`, `count_words`
and the streaming (non-regular-file) path of `count_bytes` are identical
under any two configured encodings — these paths work on raw bytes only
and never consult the encoding. -/
theorem claim_c10_encoding_independence (e1 e2 : Encoding) (c : Nat)
    (h : c ≠ 0) (s : List Nat) :
    count_lines ⟨c, e1⟩ s = count_lines ⟨c, e2⟩ s ∧
    count_words ⟨c, e1⟩ s = count_words ⟨c, e2⟩ s ∧
    count_bytes ⟨c, e1⟩ false s = count_bytes ⟨c, e2⟩ false s := by
  refine ⟨?_, ?_, ?_⟩
  · rw [count_lines_eq, count_lines_eq]
  · rw [count_words_chunked ⟨c, e1⟩ s h, count_words_chunked ⟨c, e2⟩ s h]
  · rw [count_bytes_eq, count_bytes_eq]

theorem claim_c10_encoding_independence_witness :
    count_lines ⟨4, .utf8⟩ [97, 10, 194, 160] =
      count_lines ⟨4, .latin1⟩ [97, 10, 194, 160] ∧
    count_words ⟨4, .utf8⟩ [97, 10, 194, 160] =
      count_words ⟨4, .latin1⟩ [97, 10, 194, 160] ∧
    count_bytes ⟨4, .utf8⟩ false [97, 10, 194, 160] =
      count_bytes ⟨4, .latin1⟩ false [97, 10, 194, 160] :=
  claim_c10_encoding_independence .utf8 .latin1 4 (by decide) [97, 10, 194, 160]
